import Mathlib

/-!
# Verification of the Bazel proto symlink reconciler

A shallow embedding of the Go program (`main.go` / the multi-language
revision): parsing of BUILD descriptors into the two rule-graph indices,
per-kind link/target resolution (`languageProtoRule.getLinkAndTarget`),
and the idempotent symlink reconciliation loop
(`processProtoFile` / the per-workspace pass).

Machine strings are modelled as Lean `String`s manipulated through their
character lists; the Go standard-library path helpers (`filepath.Clean`,
`Join`, `Base`, `Dir`, `strings.TrimPrefix`, ...) are embedded as
executable functions on character lists.  The filesystem is modelled as
an association list from paths to entries (symlink with recorded target,
or a non-link entry); `os.MkdirAll` only creates directories and hence
has no effect on this symlink map.
-/

set_option autoImplicit false

/-- First-match lookup in an association list; models reading a Go map
(the comma-ok form: `v, ok := m[k]`). -/
def alistFind {α : Type} : List (String × α) → String → Option α
  | [], _ => none
  | (k, v) :: rest, key => if k = key then some v else alistFind rest key

/-- Reading a Go `map[string]string` without the comma-ok form:
a missing key yields the zero value `""` (the `m[src] != ""` pattern). -/
def goGet (m : List (String × String)) (key : String) : String :=
  (alistFind m key).getD ""

/-- `strings.HasPrefix`. -/
def strings.HasPrefix (s pre : String) : Bool :=
  pre.toList.isPrefixOf s.toList

/-- `strings.TrimPrefix(s, pre)`: drops `pre` when it heads `s`,
otherwise returns `s` unchanged. -/
def strings.TrimPrefix (s pre : String) : String :=
  if pre.toList.isPrefixOf s.toList then String.mk (s.toList.drop pre.toList.length) else s

/-- `strings.TrimSuffix(s, suf)`: drops `suf` when it ends `s`,
otherwise returns `s` unchanged. -/
def strings.TrimSuffix (s suf : String) : String :=
  if suf.toList.isSuffixOf s.toList then
    String.mk (s.toList.take (s.toList.length - suf.toList.length))
  else s

/-- Split a character list at every `'/'` (boundary-keeping, like
`strings.Split(s, "/")`): used to feed `filepath.Clean`. -/
def splitSlash : List Char → List (List Char)
  | [] => [[]]
  | c :: rest =>
    if c = '/' then [] :: splitSlash rest
    else
      match splitSlash rest with
      | [] => [[c]]
      | g :: gs => (c :: g) :: gs

/-- Join character-list components with `'/'`. -/
def joinSlash : List (List Char) → List Char
  | [] => []
  | [x] => x
  | x :: xs => x ++ '/' :: joinSlash xs

/-- The component pass of `filepath.Clean` (Unix): drop empty and `"."`
components, let `".."` pop the previous real component (at the root it
is simply dropped; in a relative path leading `".."`s are kept).
`acc` holds the processed components in reverse. -/
def cleanComponents (rooted : Bool) (acc : List (List Char)) : List (List Char) → List (List Char)
  | [] => acc.reverse
  | c :: rest =>
    if c = [] ∨ c = ['.'] then cleanComponents rooted acc rest
    else if c = ['.', '.'] then
      match acc with
      | [] => if rooted then cleanComponents rooted [] rest
              else cleanComponents rooted [['.', '.']] rest
      | a :: as =>
        if a = ['.', '.'] then cleanComponents rooted (c :: a :: as) rest
        else cleanComponents rooted as rest
    else cleanComponents rooted (c :: acc) rest

/-- `filepath.Clean` (Unix separators): the standard shortest-equivalent
path, `"."` for an empty result. -/
def filepath.Clean (path : String) : String :=
  if path = "" then "." else
  let chars := path.toList
  let rooted := chars.head? = some '/'
  let comps := cleanComponents rooted [] (splitSlash chars)
  let joined := joinSlash comps
  if rooted then String.mk ('/' :: joined)
  else if joined = [] then "." else String.mk joined

/-- `filepath.Join`: drop leading empty elements, join the rest with `'/'`
and `Clean` the result; all-empty input yields `""`. -/
def filepath.Join (elems : List String) : String :=
  match elems.dropWhile (fun e => e = "") with
  | [] => ""
  | es => filepath.Clean (String.mk (joinSlash (es.map String.toList)))

/-- `filepath.Base`: the last path element after stripping trailing
slashes; `"."` for the empty path, `"/"` for an all-slash path. -/
def filepath.Base (path : String) : String :=
  if path = "" then "." else
  let stripped := (path.toList.reverse.dropWhile (fun c => c = '/')).reverse
  if stripped = [] then "/"
  else String.mk ((stripped.reverse.takeWhile (fun c => c ≠ '/')).reverse)

/-- `filepath.Dir`: everything up to and including the final `'/'`
(empty when there is none), passed through `Clean`. -/
def filepath.Dir (path : String) : String :=
  filepath.Clean (String.mk ((path.toList.reverse.dropWhile (fun c => c ≠ '/')).reverse))

/-!
## The import-path regular expression

`githubRepoRe = regexp.MustCompile("^github.com/(.+?)/(.+?)/")` and its
single use `githubRepoRe.ReplaceAllLiteralString(importPath, "")`.
The pattern is anchored, so at most one match (a prefix of the string)
exists and replacing it by `""` just removes that prefix.  The regex
`.` matches any character except a newline — including `'/'`, and also
at the unescaped dot inside `github.com`.  The lazy groups `(.+?)` are
modelled with explicit leftmost-first backtracking.
-/

/-- The literal head `github.com/` of the pattern, with the unescaped
dot matching any non-newline character. Returns the rest on success. -/
def matchGithubLit : List Char → Option (List Char)
  | 'g' :: 'i' :: 't' :: 'h' :: 'u' :: 'b' :: c :: 'c' :: 'o' :: 'm' :: '/' :: rest =>
    if c = '\n' then none else some rest
  | _ => none

/-- Matching loop of `(.+?)/⟨k⟩` after the first (mandatory) group
character has been consumed: lazily prefer closing the group at the
next `'/'` (running the continuation `k`), falling back to letting
`.` consume that character. -/
def segGo {α : Type} (k : List Char → Option α) : List Char → Option α
  | [] => none
  | c :: rest =>
    if c = '/' then
      match k rest with
      | some r => some r
      | none => segGo k rest
    else if c = '\n' then none
    else segGo k rest

/-- Match the fragment `(.+?)/` followed by continuation `k`:
the group consumes at least one non-newline character. -/
def segMatch {α : Type} (k : List Char → Option α) : List Char → Option α
  | [] => none
  | c :: rest => if c = '\n' then none else segGo k rest

/-- The anchored match of `^github.com/(.+?)/(.+?)/`; on success returns
the characters after the matched prefix. -/
def githubMatch (s : List Char) : Option (List Char) :=
  match matchGithubLit s with
  | none => none
  | some rest => segMatch (fun r1 => segMatch (fun r2 => some r2) r1) rest

/-- `githubRepoRe.ReplaceAllLiteralString(s, "")`: strip the matched
prefix if the anchored pattern matches, otherwise return `s`. -/
def githubRepoStrip (s : String) : String :=
  match githubMatch s.toList with
  | none => s
  | some rest => String.mk rest

/-! ## Rules and errors -/

def goProtoLibrary : String := "go_proto_library"

def tsProtoLibrary : String := "ts_proto_library"

/-- The structured error taxonomy: one constructor per `fmt.Errorf` site
of the program, carrying the same contextual fields. -/
inductive Err where
  | missingSources (ruleName : String)
  | duplicateSourceOwnership (src : String)
  | missingConsumedReference (ruleName : String)
  | unsupportedReferenceForm (ruleName ref : String)
  | missingImportPath (ruleName : String)
  | noGenerationRule (protoFile : String)
  | unresolvableImportPath (importPath : String)
  | unknownRuleKind (kind : String)
  | pathOccupiedByNonLink (link : String)
  | conflictingLinkTarget (link : String)
  deriving DecidableEq, Repr

/-- A generation rule derived from the descriptor
(`languageProtoRule` in the source). -/
structure languageProtoRule where
  kind : String
  name : String
  protoRuleName : String
  importPath : String
  deriving DecidableEq, Repr

/-- `languageProtoRule.getLinkAndTarget`: per-kind path algebra producing
the `(link, linkTarget)` pair.  The `os.MkdirAll(linkSrcDir, 0700)` call
of the go branch creates directories only, so it does not appear in the
symlink-map model (it is assumed to succeed). -/
def languageProtoRule.getLinkAndTarget (r : languageProtoRule)
    (workspaceRoot protoFile : String) : Except Err (String × String) :=
  let protoFileRelPath := strings.TrimPrefix protoFile workspaceRoot
  if r.kind = goProtoLibrary then
    let workspaceRelativePath := githubRepoStrip r.importPath
    if workspaceRelativePath = r.importPath then
      .error (.unresolvableImportPath r.importPath)
    else
      let protoFileBasename := filepath.Base protoFile
      let linkSrcDir := filepath.Join [workspaceRoot, workspaceRelativePath]
      let linkSrcFile := strings.TrimSuffix protoFileBasename ".proto" ++ ".pb.go"
      let linkSrc := filepath.Join [linkSrcDir, linkSrcFile]
      let genProtoAbsPath := filepath.Join [workspaceRoot, "bazel-bin",
        filepath.Dir protoFileRelPath, r.name ++ "_", r.importPath, linkSrcFile]
      .ok (linkSrc, genProtoAbsPath)
  else if r.kind = tsProtoLibrary then
    let linkSrc := filepath.Join [workspaceRoot, filepath.Dir protoFileRelPath, r.name ++ ".d.ts"]
    let genProtoAbsPath := filepath.Join [workspaceRoot, "bazel-bin",
      filepath.Dir protoFileRelPath, r.name ++ ".d.ts"]
    .ok (linkSrc, genProtoAbsPath)
  else
    .error (.unknownRuleKind r.kind)

/-- A rule of the externally parsed BUILD descriptor: kind, name, and its
string / string-list attributes (the facets of `build.Rule` the program
reads). -/
structure Rule where
  kind : String
  name : String
  strAttrs : List (String × String)
  listAttrs : List (String × List String)
  deriving DecidableEq, Repr

/-- `build.Rule.AttrString`: the string attribute, `""` when absent. -/
def Rule.AttrString (r : Rule) (key : String) : String :=
  (alistFind r.strAttrs key).getD ""

/-- `build.Rule.AttrStrings`: the string-list attribute; `none` models
the `nil` slice of an absent attribute, `some []` a present empty list. -/
def Rule.AttrStrings (r : Rule) (key : String) : Option (List String) :=
  alistFind r.listAttrs key

/-- `build.File.Rules(kind)`: every rule when `kind = ""`, otherwise the
rules of that kind, in file order. -/
def rulesOfKind (buildFile : List Rule) (kind : String) : List Rule :=
  if kind = "" then buildFile else buildFile.filter (fun r => r.kind = kind)

/-- The two indices built by `parseBuildFile`. -/
structure parsedBuildFile where
  protoFileToRule : List (String × String)
  protoRuleToLangProtoRules : List (String × List languageProtoRule)
  deriving DecidableEq, Repr

/-- `parsedBuildFile.getLangProtoRulesForProto`: look up the declaring
rule by the proto file's basename, then the generation rules consuming
it; `none` models the `(nil, false)` return. -/
def parsedBuildFile.getLangProtoRulesForProto (b : parsedBuildFile)
    (protoFile : String) : Option (List languageProtoRule) :=
  match alistFind b.protoFileToRule (filepath.Base protoFile) with
  | none => none
  | some protoRule =>
    match alistFind b.protoRuleToLangProtoRules protoRule with
    | none => none
    | some langRules => some langRules

/-- The inner `for _, src := range srcs` loop of `parseBuildFile`:
register each listed source for `ruleName`, failing when the string is
already registered to a (non-empty-named) rule. -/
def registerSrcs (ruleName : String) : List String → List (String × String) →
    Except Err (List (String × String))
  | [], m => .ok m
  | src :: rest, m =>
    if goGet m src ≠ "" then .error (.duplicateSourceOwnership src)
    else registerSrcs ruleName rest ((src, ruleName) :: m)

/-- The `proto_library` loop of `parseBuildFile`: build
`protoFileToRule`, failing when a rule has no `srcs` attribute. -/
def buildProtoIndex : List Rule → List (String × String) →
    Except Err (List (String × String))
  | [], m => .ok m
  | r :: rest, m =>
    match r.AttrStrings "srcs" with
    | none => .error (.missingSources r.name)
    | some srcs =>
      match registerSrcs r.name srcs m with
      | .error e => .error e
      | .ok m' => buildProtoIndex rest m'

/-- The generation-rule loop of `parseBuildFile`: walk every rule,
skip kinds other than go/ts, validate the `proto` reference (and
`importpath` for the go kind) and append to
`protoRuleToLangProtoRules[protoRuleName]`. -/
def buildLangIndex : List Rule → List (String × List languageProtoRule) →
    Except Err (List (String × List languageProtoRule))
  | [], m => .ok m
  | r :: rest, m =>
    if r.kind ≠ goProtoLibrary ∧ r.kind ≠ tsProtoLibrary then buildLangIndex rest m
    else
      let protoRule := r.AttrString "proto"
      if protoRule = "" then .error (.missingConsumedReference r.name)
      else if ¬ strings.HasPrefix protoRule ":" then
        .error (.unsupportedReferenceForm r.name protoRule)
      else
        let importPath := if r.kind = goProtoLibrary then r.AttrString "importpath" else ""
        if r.kind = goProtoLibrary ∧ importPath = "" then .error (.missingImportPath r.name)
        else
          let protoRuleName := String.mk (protoRule.toList.drop 1)
          let langProtoRule : languageProtoRule :=
            ⟨r.kind, r.name, protoRuleName, importPath⟩
          buildLangIndex rest
            ((protoRuleName,
              ((alistFind m protoRuleName).getD []) ++ [langProtoRule]) :: m)

/-- `parseBuildFile`, after the external declarative-language parser has
produced the rule list: build both indices. -/
def parseBuildFile (rules : List Rule) : Except Err parsedBuildFile :=
  match buildProtoIndex (rulesOfKind rules "proto_library") [] with
  | .error e => .error e
  | .ok protoFileToRule =>
    match buildLangIndex (rulesOfKind rules "") [] with
    | .error e => .error e
    | .ok protoRuleToLangProtoRules => .ok ⟨protoFileToRule, protoRuleToLangProtoRules⟩

/-! ## Filesystem model and reconciliation -/

/-- What `os.Lstat` can see at a path, as far as the program inspects it:
a symbolic link with its recorded target string, or anything else
(regular file, directory, ... — `Mode()&os.ModeSymlink == 0`). -/
inductive FSEntry where
  | symlink (target : String)
  | nonLink
  deriving DecidableEq, Repr

/-- The filesystem as a finite map from paths to entries. -/
def FS : Type := List (String × FSEntry)

instance : DecidableEq FS := fun a b => List.hasDecEq a b

/-- Outcome classification of one reconciliation. -/
inductive ReconcileOutcome where
  | created
  | alreadyUpToDate
  deriving DecidableEq, Repr

/-- The reconciliation of one `(link, linkTarget)` pair — the
`os.Lstat` / `os.Readlink` / `os.Symlink` block of `processProtoFile`:
create the link when nothing is there, accept an identical existing
link, fail on a non-link occupant or a different recorded target. -/
def reconcile (fs : FS) (link linkTarget : String) :
    Except Err (FS × ReconcileOutcome) :=
  match alistFind fs link with
  | some (.symlink existingTarget) =>
    if existingTarget = linkTarget then .ok (fs, .alreadyUpToDate)
    else .error (.conflictingLinkTarget link)
  | some .nonLink => .error (.pathOccupiedByNonLink link)
  | none => .ok ((link, .symlink linkTarget) :: fs, .created)

/-- The running `{created, upToDate}` counters (`result` in the source). -/
structure result where
  created : Nat
  upToDate : Nat
  deriving DecidableEq, Repr

/-- The `for _, langRule := range langRules` loop of `processProtoFile`:
resolve each rule and reconcile its pair, bumping the matching counter. -/
def processLangRules (workspaceRoot protoFile : String) :
    List languageProtoRule → FS → result → Except Err (FS × result)
  | [], fs, res => .ok (fs, res)
  | langRule :: rest, fs, res =>
    match langRule.getLinkAndTarget workspaceRoot protoFile with
    | .error e => .error e
    | .ok (link, linkTarget) =>
      match reconcile fs link linkTarget with
      | .error e => .error e
      | .ok (fs', .created) =>
        processLangRules workspaceRoot protoFile rest fs'
          { res with created := res.created + 1 }
      | .ok (fs', .alreadyUpToDate) =>
        processLangRules workspaceRoot protoFile rest fs'
          { res with upToDate := res.upToDate + 1 }

/-- `processProtoFile`: look up the generation rules for one proto file
and reconcile each of their pairs. -/
def processProtoFile (workspaceRoot protoFile : String)
    (buildFile : parsedBuildFile) (fs : FS) (res : result) :
    Except Err (FS × result) :=
  match buildFile.getLangProtoRulesForProto protoFile with
  | none => .error (.noGenerationRule protoFile)
  | some langRules => processLangRules workspaceRoot protoFile langRules fs res

/-- The reconciliation pass of `processWorkspace`: the walk over the
discovered proto files, each already paired with its parsed `BUILD`
descriptor (directory traversal, `BUILD` stat and the parse cache are
the out-of-scope collaborators), threading the filesystem and the
counters and failing fast. -/
def processPass (workspaceRoot : String) :
    List (String × parsedBuildFile) → FS → result → Except Err (FS × result)
  | [], fs, res => .ok (fs, res)
  | (protoFile, buildFile) :: rest, fs, res =>
    match processProtoFile workspaceRoot protoFile buildFile fs res with
    | .error e => .error e
    | .ok (fs', res') => processPass workspaceRoot rest fs' res'

/-! ## Concrete descriptors used by the example claims and witnesses -/

/-- The go-kind generation rule of the worked example. -/
def mGoRule : languageProtoRule :=
  ⟨"go_proto_library", "m_go", "m", "github.com/acme/proj/pkg/m"⟩

/-- The ts-kind generation rule of the worked example. -/
def mTsRule : languageProtoRule := ⟨"ts_proto_library", "m_ts", "m", ""⟩

/-- The example descriptor: `proto_library(name="m", srcs=["m.proto"])`
and `go_proto_library(name="m_go", proto=":m",
importpath="github.com/acme/proj/pkg/m")`. -/
def mDescriptor : List Rule :=
  [⟨"proto_library", "m", [], [("srcs", ["m.proto"])]⟩,
   ⟨"go_proto_library", "m_go",
     [("proto", ":m"), ("importpath", "github.com/acme/proj/pkg/m")], []⟩]

/-- The parse of `mDescriptor`. -/
def mParsed : parsedBuildFile := ⟨[("m.proto", "m")], [("m", [mGoRule])]⟩

/-- A descriptor whose declaring rule lists its source with a directory
component: `proto_library(name="sub_m", srcs=["sub/m.proto"])`, consumed
by a go generation rule. -/
def subDescriptor : List Rule :=
  [⟨"proto_library", "sub_m", [], [("srcs", ["sub/m.proto"])]⟩,
   ⟨"go_proto_library", "sub_m_go",
     [("proto", ":sub_m"), ("importpath", "github.com/acme/proj/pkg/sub")], []⟩]

/-- The generation rule of `subDescriptor`. -/
def subGoRule : languageProtoRule :=
  ⟨"go_proto_library", "sub_m_go", "sub_m", "github.com/acme/proj/pkg/sub"⟩

/-- The parse of `subDescriptor`: the index key is the listed string
`"sub/m.proto"` verbatim. -/
def subParsed : parsedBuildFile :=
  ⟨[("sub/m.proto", "sub_m")], [("sub_m", [subGoRule])]⟩

/-- The filesystem after the first reconciliation run of the worked
example: the single created symlink. -/
def mLinkedFS : FS :=
  [("/ws/pkg/m/m.pb.go",
    .symlink "/ws/bazel-bin/pkg/m_go_/github.com/acme/proj/pkg/m/m.pb.go")]

/-! ## Claims -/

/-- C3: parsing the example descriptor and resolving the go-kind rule for
artifact `/ws/pkg/m.proto` under root `/ws` yields exactly
`linkPath = /ws/pkg/m/m.pb.go` and
`targetPath = /ws/bazel-bin/pkg/m_go_/github.com/acme/proj/pkg/m/m.pb.go`:
the `.proto` extension is replaced by `.pb.go`, the
`github.com/owner/project/` prefix is stripped from the import path for
the link, and the rule name is suffixed with `_` in the target. -/
theorem c3_go_resolution_example :
    parseBuildFile mDescriptor = .ok mParsed ∧
    mParsed.getLangProtoRulesForProto "/ws/pkg/m.proto" = some [mGoRule] ∧
    mGoRule.getLinkAndTarget "/ws" "/ws/pkg/m.proto" =
      .ok ("/ws/pkg/m/m.pb.go",
           "/ws/bazel-bin/pkg/m_go_/github.com/acme/proj/pkg/m/m.pb.go") :=
  ⟨rfl, rfl, rfl⟩

/-- C4: every declaration-bound (`ts_proto_library`) generation rule
resolves to `linkPath` = workspaceRoot / (workspace-relative directory of
the artifact) / (rule name + ".d.ts") and `targetPath` = workspaceRoot /
"bazel-bin" / (same relative directory) / (same basename). -/
theorem c4_ts_resolution (r : languageProtoRule) (workspaceRoot protoFile : String)
    (h : r.kind = tsProtoLibrary) :
    r.getLinkAndTarget workspaceRoot protoFile =
      .ok (filepath.Join [workspaceRoot,
             filepath.Dir (strings.TrimPrefix protoFile workspaceRoot), r.name ++ ".d.ts"],
           filepath.Join [workspaceRoot, "bazel-bin",
             filepath.Dir (strings.TrimPrefix protoFile workspaceRoot), r.name ++ ".d.ts"]) := by
  have hk : ¬ r.kind = goProtoLibrary := by
    rw [h]; decide
  simp [languageProtoRule.getLinkAndTarget, h, hk, goProtoLibrary, tsProtoLibrary]

/-- C4 witness: `ts_proto_library(name="m_ts", proto=":m")` for artifact
`/ws/pkg/m.proto` under root `/ws` resolves to
`(/ws/pkg/m_ts.d.ts, /ws/bazel-bin/pkg/m_ts.d.ts)`. -/
theorem c4_ts_resolution_witness :
    mTsRule.getLinkAndTarget "/ws" "/ws/pkg/m.proto" =
      .ok ("/ws/pkg/m_ts.d.ts", "/ws/bazel-bin/pkg/m_ts.d.ts") := by
  rw [c4_ts_resolution mTsRule "/ws" "/ws/pkg/m.proto" rfl]
  rfl

/-- C10: declaration-bound (ts) resolution does not depend on the
`importPath` field: two rules differing only there resolve to identical
`(linkPath, targetPath)` pairs. -/
theorem c10_ts_resolution_ignores_importpath
    (name protoRuleName importPath1 importPath2 workspaceRoot protoFile : String) :
    languageProtoRule.getLinkAndTarget ⟨tsProtoLibrary, name, protoRuleName, importPath1⟩
        workspaceRoot protoFile =
      languageProtoRule.getLinkAndTarget ⟨tsProtoLibrary, name, protoRuleName, importPath2⟩
        workspaceRoot protoFile := by
  simp [languageProtoRule.getLinkAndTarget, goProtoLibrary, tsProtoLibrary]

/-- C6: go-kind resolution fails with `UnresolvableImportPath` exactly
when stripping the recognized hosting prefix from the import path is a
no-op; when stripping does change the string, resolution succeeds and
the stripped remainder is the workspace-relative link directory. -/
theorem c6_unresolvable_importpath_iff (r : languageProtoRule)
    (workspaceRoot protoFile : String) (hk : r.kind = goProtoLibrary) :
    (r.getLinkAndTarget workspaceRoot protoFile =
        .error (.unresolvableImportPath r.importPath) ↔
      githubRepoStrip r.importPath = r.importPath) ∧
    (githubRepoStrip r.importPath ≠ r.importPath →
      r.getLinkAndTarget workspaceRoot protoFile =
        .ok (filepath.Join [filepath.Join [workspaceRoot, githubRepoStrip r.importPath],
               strings.TrimSuffix (filepath.Base protoFile) ".proto" ++ ".pb.go"],
             filepath.Join [workspaceRoot, "bazel-bin",
               filepath.Dir (strings.TrimPrefix protoFile workspaceRoot),
               r.name ++ "_", r.importPath,
               strings.TrimSuffix (filepath.Base protoFile) ".proto" ++ ".pb.go"])) := by
  by_cases hs : githubRepoStrip r.importPath = r.importPath <;>
    simp [languageProtoRule.getLinkAndTarget, hk, hs]

/-- C6 witness: the example go rule has a strippable import path and
resolves to the expected pair. -/
theorem c6_unresolvable_importpath_iff_witness :
    githubRepoStrip "github.com/acme/proj/pkg/m" ≠ "github.com/acme/proj/pkg/m" ∧
    mGoRule.getLinkAndTarget "/ws" "/ws/pkg/m.proto" =
      .ok ("/ws/pkg/m/m.pb.go",
           "/ws/bazel-bin/pkg/m_go_/github.com/acme/proj/pkg/m/m.pb.go") := by
  have h := (c6_unresolvable_importpath_iff mGoRule "/ws" "/ws/pkg/m.proto" rfl).2
    (by decide)
  exact ⟨by decide, by rw [h]; rfl⟩

/-- C2: reconciling a pair whose `linkPath` is already occupied: a
non-link occupant fails with `PathOccupiedByNonLink` (and nothing is
deleted or overwritten — no filesystem is returned on error); a symlink
whose recorded target equals `targetPath` by string equality reports
`AlreadyUpToDate` with the filesystem unchanged; a symlink with a
different recorded target fails with `ConflictingLinkTarget` and is
never replaced. -/
theorem c2_reconcile_occupied (fs : FS) (link target : String) (e : FSEntry)
    (h : alistFind fs link = some e) :
    (e = .nonLink →
      reconcile fs link target = .error (.pathOccupiedByNonLink link)) ∧
    (∀ t, e = .symlink t →
      (t = target → reconcile fs link target = .ok (fs, .alreadyUpToDate)) ∧
      (t ≠ target → reconcile fs link target = .error (.conflictingLinkTarget link))) := by
  constructor
  · intro he
    subst he
    simp [reconcile, h]
  · intro t ht
    subst ht
    constructor
    · intro hteq
      subst hteq
      simp [reconcile, h]
    · intro htne
      simp [reconcile, h, htne]

/-- C2 witness: a non-link occupant at the link path. -/
theorem c2_reconcile_occupied_witness :
    reconcile [("/ws/pkg/m/m.pb.go", FSEntry.nonLink)] "/ws/pkg/m/m.pb.go" "/t" =
      .error (.pathOccupiedByNonLink "/ws/pkg/m/m.pb.go") :=
  (c2_reconcile_occupied [("/ws/pkg/m/m.pb.go", FSEntry.nonLink)]
    "/ws/pkg/m/m.pb.go" "/t" FSEntry.nonLink rfl).1 rfl

/-- C7: when the artifact's basename is not declared by any
source-declaring rule, or is declared but the declaring rule has zero
generation-rule consumers, the lookup reports the same not-found
condition (`none`), and the caller turns it into a processing error for
the workspace rather than skipping the artifact. -/
theorem c7_no_generation_rule (b : parsedBuildFile) (workspaceRoot protoFile : String)
    (fs : FS) (res : result)
    (h : alistFind b.protoFileToRule (filepath.Base protoFile) = none ∨
         ∃ n, alistFind b.protoFileToRule (filepath.Base protoFile) = some n ∧
              alistFind b.protoRuleToLangProtoRules n = none) :
    b.getLangProtoRulesForProto protoFile = none ∧
    processProtoFile workspaceRoot protoFile b fs res =
      .error (.noGenerationRule protoFile) := by
  have hnone : b.getLangProtoRulesForProto protoFile = none := by
    rcases h with h | ⟨n, h1, h2⟩
    · simp [parsedBuildFile.getLangProtoRulesForProto, h]
    · simp [parsedBuildFile.getLangProtoRulesForProto, h1, h2]
  refine ⟨hnone, ?_⟩
  unfold processProtoFile
  rw [hnone]

/-- C7 witness: a descriptor declaring `m.proto` whose declaring rule has
no generation-rule consumers. -/
theorem c7_no_generation_rule_witness :
    parsedBuildFile.getLangProtoRulesForProto ⟨[("m.proto", "m")], []⟩ "/ws/pkg/m.proto" = none ∧
    processProtoFile "/ws" "/ws/pkg/m.proto" ⟨[("m.proto", "m")], []⟩ [] ⟨0, 0⟩ =
      .error (.noGenerationRule "/ws/pkg/m.proto") :=
  c7_no_generation_rule ⟨[("m.proto", "m")], []⟩ "/ws" "/ws/pkg/m.proto" [] ⟨0, 0⟩
    (Or.inr ⟨"m", by decide, rfl⟩)

/-! ## Lemmas about the source-registration loop -/

theorem goGet_cons (k v key : String) (m : List (String × String)) :
    goGet ((k, v) :: m) key = if k = key then v else goGet m key := by
  by_cases h : k = key <;> simp [goGet, alistFind, h]

theorem registerSrcs_error_dup (ruleName : String) (l : List String) :
    ∀ m e, registerSrcs ruleName l m = .error e →
      ∃ s, e = .duplicateSourceOwnership s := by
  induction l with
  | nil => intro m e h; simp [registerSrcs] at h
  | cons src rest ih =>
    intro m e h
    simp only [registerSrcs] at h
    split at h
    · exact ⟨src, (Except.error.inj h).symm⟩
    · exact ih _ _ h

theorem registerSrcs_preserve (ruleName : String) (l : List String) :
    ∀ m m', registerSrcs ruleName l m = .ok m' →
      ∀ k, goGet m k ≠ "" → goGet m' k ≠ "" := by
  induction l with
  | nil =>
    intro m m' h k hk
    simp only [registerSrcs] at h
    exact (Except.ok.inj h) ▸ hk
  | cons src rest ih =>
    intro m m' h k hk
    by_cases hcond : goGet m src ≠ ""
    · simp [registerSrcs, hcond] at h
    · have hsrc : goGet m src = "" := not_not.mp hcond
      simp only [registerSrcs, if_neg hcond] at h
      refine ih _ _ h k ?_
      rw [goGet_cons]
      by_cases hsk : src = k
      · exact absurd (hsk ▸ hsrc) hk
      · rw [if_neg hsk]; exact hk

theorem registerSrcs_preserveVal (ruleName : String) (l : List String) :
    ∀ m m' k, goGet m k ≠ "" → registerSrcs ruleName l m = .ok m' →
      goGet m' k = goGet m k := by
  induction l with
  | nil =>
    intro m m' k _ h
    simp only [registerSrcs] at h
    rw [Except.ok.inj h]
  | cons src rest ih =>
    intro m m' k hk h
    by_cases hcond : goGet m src ≠ ""
    · simp [registerSrcs, hcond] at h
    · have hsrc : goGet m src = "" := not_not.mp hcond
      simp only [registerSrcs, if_neg hcond] at h
      have hne : src ≠ k := fun he => hk (he ▸ hsrc)
      have step : goGet ((src, ruleName) :: m) k = goGet m k := by
        rw [goGet_cons, if_neg hne]
      have := ih _ _ k (by rw [step]; exact hk) h
      rw [this, step]

theorem registerSrcs_registers (ruleName : String) (hn : ruleName ≠ "") (l : List String) :
    ∀ m m' s, registerSrcs ruleName l m = .ok m' → s ∈ l → goGet m' s ≠ "" := by
  induction l with
  | nil => intro m m' s _ hs; simp at hs
  | cons src rest ih =>
    intro m m' s h hs
    by_cases hcond : goGet m src ≠ ""
    · simp [registerSrcs, hcond] at h
    · simp only [registerSrcs, if_neg hcond] at h
      rcases List.mem_cons.mp hs with heq | hmem
      · subst heq
        refine registerSrcs_preserve ruleName rest _ _ h s ?_
        rw [goGet_cons, if_pos rfl]
        exact hn
      · exact ih _ _ s h hmem

theorem registerSrcs_value (ruleName : String) (hn : ruleName ≠ "") (l : List String) :
    ∀ m m' s, registerSrcs ruleName l m = .ok m' → s ∈ l →
      goGet m' s = ruleName := by
  induction l with
  | nil => intro m m' s _ hs; simp at hs
  | cons src rest ih =>
    intro m m' s h hs
    by_cases hcond : goGet m src ≠ ""
    · simp [registerSrcs, hcond] at h
    · simp only [registerSrcs, if_neg hcond] at h
      rcases List.mem_cons.mp hs with heq | hmem
      · subst heq
        have hreg : goGet ((s, ruleName) :: m) s = ruleName := by
          rw [goGet_cons, if_pos rfl]
        have := registerSrcs_preserveVal ruleName rest _ _ s (by rw [hreg]; exact hn) h
        rw [this, hreg]
      · exact ih _ _ s h hmem

theorem registerSrcs_hits (ruleName s : String) (l : List String) :
    ∀ m, goGet m s ≠ "" → s ∈ l →
      ∃ s', registerSrcs ruleName l m = .error (.duplicateSourceOwnership s') := by
  induction l with
  | nil => intro m _ hs; simp at hs
  | cons src rest ih =>
    intro m hreg hs
    by_cases hcond : goGet m src ≠ ""
    · exact ⟨src, by simp [registerSrcs, hcond]⟩
    · have hsrc : goGet m src = "" := not_not.mp hcond
      have hne : s ≠ src := fun he => hreg (he ▸ hsrc)
      rcases List.mem_cons.mp hs with heq | hmem
      · exact absurd heq hne
      · have hstep : goGet ((src, ruleName) :: m) s ≠ "" := by
          rw [goGet_cons, if_neg (fun h => hne h.symm)]
          exact hreg
        obtain ⟨s', hs'⟩ := ih _ hstep hmem
        exact ⟨s', by simp [registerSrcs, if_neg hcond, hs']⟩

/-! ## Lemmas about the index-building loops -/

theorem buildProtoIndex_ok_srcs (l : List Rule) :
    ∀ m m', buildProtoIndex l m = .ok m' →
      ∀ r ∈ l, (r.AttrStrings "srcs").isSome := by
  induction l with
  | nil => intro m m' _ r hr; simp at hr
  | cons r₀ rest ih =>
    intro m m' h r hr
    simp only [buildProtoIndex] at h
    cases hsr : r₀.AttrStrings "srcs" with
    | none => simp [hsr] at h
    | some srcs =>
      simp only [hsr] at h
      cases hreg : registerSrcs r₀.name srcs m with
      | error e => simp [hreg] at h
      | ok m₂ =>
        simp only [hreg] at h
        rcases List.mem_cons.mp hr with heq | hmem
        · subst heq; simp [hsr]
        · exact ih _ _ h r hmem

theorem buildProtoIndex_error_missing (l : List Rule) :
    ∀ m n, buildProtoIndex l m = .error (.missingSources n) →
      ∃ r ∈ l, r.name = n ∧ r.AttrStrings "srcs" = none := by
  induction l with
  | nil => intro m n h; simp [buildProtoIndex] at h
  | cons r₀ rest ih =>
    intro m n h
    simp only [buildProtoIndex] at h
    cases hsr : r₀.AttrStrings "srcs" with
    | none =>
      simp only [hsr, Except.error.injEq, Err.missingSources.injEq] at h
      exact ⟨r₀, List.mem_cons_self _ _, h, hsr⟩
    | some srcs =>
      simp only [hsr] at h
      cases hreg : registerSrcs r₀.name srcs m with
      | error e =>
        simp only [hreg, Except.error.injEq] at h
        obtain ⟨s, hs⟩ := registerSrcs_error_dup _ _ _ _ hreg
        rw [hs] at h
        exact absurd h (by simp)
      | ok m₂ =>
        simp only [hreg] at h
        obtain ⟨r, hr, hrest⟩ := ih _ _ h
        exact ⟨r, List.mem_cons_of_mem _ hr, hrest⟩

theorem buildProtoIndex_error_dup (l : List Rule) :
    ∀ m e, (∀ r ∈ l, (r.AttrStrings "srcs").isSome) →
      buildProtoIndex l m = .error e →
      ∃ s, e = .duplicateSourceOwnership s := by
  induction l with
  | nil => intro m e _ h; simp [buildProtoIndex] at h
  | cons r₀ rest ih =>
    intro m e hall h
    simp only [buildProtoIndex] at h
    cases hsr : r₀.AttrStrings "srcs" with
    | none => exact absurd (hall r₀ (List.mem_cons_self _ _)) (by simp [hsr])
    | some srcs =>
      simp only [hsr] at h
      cases hreg : registerSrcs r₀.name srcs m with
      | error e' =>
        simp only [hreg, Except.error.injEq] at h
        obtain ⟨s, hs⟩ := registerSrcs_error_dup _ _ _ _ hreg
        exact ⟨s, h ▸ hs⟩
      | ok m₂ =>
        simp only [hreg] at h
        exact ih _ _ (fun r hr => hall r (List.mem_cons_of_mem _ hr)) h

theorem buildProtoIndex_append (xs ys : List Rule) :
    ∀ m, buildProtoIndex (xs ++ ys) m =
      match buildProtoIndex xs m with
      | .error e => .error e
      | .ok m' => buildProtoIndex ys m' := by
  induction xs with
  | nil => intro m; rfl
  | cons r rest ih =>
    intro m
    cases hsr : r.AttrStrings "srcs" with
    | none => simp only [List.cons_append, buildProtoIndex, hsr]
    | some srcs =>
      cases hreg : registerSrcs r.name srcs m with
      | error e => simp only [List.cons_append, buildProtoIndex, hsr, hreg]
      | ok m₂ =>
        simp only [List.cons_append, buildProtoIndex, hsr, hreg]
        exact ih m₂

theorem buildProtoIndex_preserve (l : List Rule) :
    ∀ m m' k, buildProtoIndex l m = .ok m' → goGet m k ≠ "" → goGet m' k ≠ "" := by
  induction l with
  | nil =>
    intro m m' k h hk
    simp only [buildProtoIndex] at h
    exact (Except.ok.inj h) ▸ hk
  | cons r rest ih =>
    intro m m' k h hk
    simp only [buildProtoIndex] at h
    cases hsr : r.AttrStrings "srcs" with
    | none => simp [hsr] at h
    | some srcs =>
      simp only [hsr] at h
      cases hreg : registerSrcs r.name srcs m with
      | error e => simp [hreg] at h
      | ok m₂ =>
        simp only [hreg] at h
        exact ih _ _ k h (registerSrcs_preserve _ _ _ _ hreg k hk)

theorem buildProtoIndex_preserveVal (l : List Rule) :
    ∀ m m' k, goGet m k ≠ "" → buildProtoIndex l m = .ok m' →
      goGet m' k = goGet m k := by
  induction l with
  | nil =>
    intro m m' k _ h
    simp only [buildProtoIndex] at h
    rw [Except.ok.inj h]
  | cons r rest ih =>
    intro m m' k hk h
    simp only [buildProtoIndex] at h
    cases hsr : r.AttrStrings "srcs" with
    | none => simp [hsr] at h
    | some srcs =>
      simp only [hsr] at h
      cases hreg : registerSrcs r.name srcs m with
      | error e => simp [hreg] at h
      | ok m₂ =>
        simp only [hreg] at h
        have hval := registerSrcs_preserveVal _ _ _ _ k hk hreg
        have := ih _ _ k (by rw [hval]; exact hk) h
        rw [this, hval]

theorem buildProtoIndex_value (l : List Rule) :
    ∀ m m' r lst s, r ∈ l → r.AttrStrings "srcs" = some lst → s ∈ lst →
      r.name ≠ "" → buildProtoIndex l m = .ok m' → goGet m' s = r.name := by
  induction l with
  | nil => intro m m' r lst s hr _ _ _ _; simp at hr
  | cons r₀ rest ih =>
    intro m m' r lst s hr hlst hsin hn h
    simp only [buildProtoIndex] at h
    cases hsr : r₀.AttrStrings "srcs" with
    | none => simp [hsr] at h
    | some srcs =>
      simp only [hsr] at h
      cases hreg : registerSrcs r₀.name srcs m with
      | error e => simp [hreg] at h
      | ok m₂ =>
        simp only [hreg] at h
        rcases List.mem_cons.mp hr with heq | hmem
        · subst heq
          rw [hsr] at hlst
          have hls : srcs = lst := Option.some.inj hlst
          subst hls
          have hval := registerSrcs_value r.name hn _ _ _ s hreg hsin
          have := buildProtoIndex_preserveVal rest _ _ s (by rw [hval]; exact hn) h
          rw [this, hval]
        · exact ih _ _ r lst s hmem hlst hsin hn h

theorem buildProtoIndex_hits (l : List Rule) :
    ∀ m s, goGet m s ≠ "" →
      (∀ r ∈ l, (r.AttrStrings "srcs").isSome) →
      (∃ r ∈ l, ∃ lst, r.AttrStrings "srcs" = some lst ∧ s ∈ lst) →
      ∃ s', buildProtoIndex l m = .error (.duplicateSourceOwnership s') := by
  induction l with
  | nil => intro m s _ _ hex; simp at hex
  | cons r₀ rest ih =>
    intro m s hreg hall hex
    cases hsr : r₀.AttrStrings "srcs" with
    | none => exact absurd (hall r₀ (List.mem_cons_self _ _)) (by simp [hsr])
    | some srcs₀ =>
      cases hrg : registerSrcs r₀.name srcs₀ m with
      | error e =>
        obtain ⟨s', hs'⟩ := registerSrcs_error_dup _ _ _ _ hrg
        refine ⟨s', ?_⟩
        simp only [buildProtoIndex, hsr, hrg, hs']
      | ok m₂ =>
        have hpre : goGet m₂ s ≠ "" := registerSrcs_preserve _ _ _ _ hrg s hreg
        rcases hex with ⟨r, hr, lst, hlst, hsin⟩
        rcases List.mem_cons.mp hr with heq | hmem
        · subst heq
          rw [hsr] at hlst
          have hls : srcs₀ = lst := Option.some.inj hlst
          subst hls
          obtain ⟨s', hs'⟩ := registerSrcs_hits r.name s _ m hreg hsin
          rw [hrg] at hs'
          exact absurd hs' (by simp)
        · obtain ⟨s', hs'⟩ := ih m₂ s hpre
            (fun r' hr' => hall r' (List.mem_cons_of_mem _ hr'))
            ⟨r, hmem, lst, hlst, hsin⟩
          refine ⟨s', ?_⟩
          simp only [buildProtoIndex, hsr, hrg, hs']

theorem buildLangIndex_error_shape (l : List Rule) :
    ∀ m e, buildLangIndex l m = .error e →
      (∃ a, e = .missingConsumedReference a) ∨
      (∃ a b, e = .unsupportedReferenceForm a b) ∨
      (∃ a, e = .missingImportPath a) := by
  induction l with
  | nil => intro m e h; simp [buildLangIndex] at h
  | cons r rest ih =>
    intro m e h
    simp only [buildLangIndex] at h
    split at h
    · exact ih _ _ h
    · split at h
      · exact Or.inl ⟨r.name, (Except.error.inj h).symm⟩
      · split at h
        · exact Or.inr (Or.inl ⟨r.name, r.AttrString "proto", (Except.error.inj h).symm⟩)
        · split at h <;> split at h
          · exact Or.inr (Or.inr ⟨r.name, (Except.error.inj h).symm⟩)
          · exact ih _ _ h
          · exact Or.inr (Or.inr ⟨r.name, (Except.error.inj h).symm⟩)
          · exact ih _ _ h

theorem parseBuildFile_ok_protoIndex (rules : List Rule) (b : parsedBuildFile)
    (h : parseBuildFile rules = .ok b) :
    buildProtoIndex (rulesOfKind rules "proto_library") [] = .ok b.protoFileToRule := by
  unfold parseBuildFile at h
  cases hbp : buildProtoIndex (rulesOfKind rules "proto_library") [] with
  | error e => simp [hbp] at h
  | ok m₁ =>
    simp only [hbp] at h
    cases hbl : buildLangIndex (rulesOfKind rules "") [] with
    | error e => simp [hbl] at h
    | ok m₂ =>
      simp only [hbl] at h
      have hb : parsedBuildFile.mk m₁ m₂ = b := Except.ok.inj h
      rw [← hb]

/-- C8: parsing fails with the missing-sources error exactly for a
`proto_library` rule with no `srcs` attribute at all: every
`MissingSources` failure names such a rule, and any descriptor
containing such a rule never parses successfully — while a rule whose
`srcs` is present but empty can never trigger this failure (by the first
conjunct, a `MissingSources` error implies an absent attribute). -/
theorem c8_missing_sources (rules : List Rule) :
    (∀ n, parseBuildFile rules = .error (.missingSources n) →
      ∃ r ∈ rules, r.kind = "proto_library" ∧ r.name = n ∧
        r.AttrStrings "srcs" = none) ∧
    ((∃ r ∈ rules, r.kind = "proto_library" ∧ r.AttrStrings "srcs" = none) →
      ∀ b, parseBuildFile rules ≠ .ok b) := by
  have hfil : rulesOfKind rules "proto_library" =
      rules.filter (fun r => r.kind = "proto_library") := by
    simp only [rulesOfKind]
    rw [if_neg (by decide : ¬("proto_library" : String) = "")]
  constructor
  · intro n h
    unfold parseBuildFile at h
    cases hbp : buildProtoIndex (rulesOfKind rules "proto_library") [] with
    | error e =>
      simp only [hbp] at h
      have he : e = .missingSources n := Except.error.inj h
      subst he
      obtain ⟨r, hr, hname, hsrcs⟩ := buildProtoIndex_error_missing _ _ _ hbp
      rw [hfil] at hr
      have hmem := List.mem_filter.mp hr
      exact ⟨r, hmem.1, by simpa using hmem.2, hname, hsrcs⟩
    | ok m₁ =>
      simp only [hbp] at h
      cases hbl : buildLangIndex (rulesOfKind rules "") [] with
      | error e =>
        simp only [hbl] at h
        have he : e = .missingSources n := Except.error.inj h
        subst he
        rcases buildLangIndex_error_shape _ _ _ hbl with ⟨a, ha⟩ | ⟨a, b, hab⟩ | ⟨a, ha⟩
        · exact absurd ha (by simp)
        · exact absurd hab (by simp)
        · exact absurd ha (by simp)
      | ok m₂ =>
        simp only [hbl] at h
        exact absurd h (by simp)
  · rintro ⟨r, hr, hk, hsrcs⟩ b hok
    have hbp := parseBuildFile_ok_protoIndex rules b hok
    have hmem : r ∈ rulesOfKind rules "proto_library" := by
      rw [hfil]
      exact List.mem_filter.mpr ⟨hr, by simp [hk]⟩
    have hall := buildProtoIndex_ok_srcs _ _ _ hbp r hmem
    rw [hsrcs] at hall
    simp at hall

/-- C8 witness: a `proto_library` rule with no `srcs` attribute. -/
theorem c8_missing_sources_witness :
    ∃ r ∈ [(⟨"proto_library", "nosrc", [], []⟩ : Rule)],
      r.kind = "proto_library" ∧ r.name = "nosrc" ∧
        r.AttrStrings "srcs" = none :=
  (c8_missing_sources [⟨"proto_library", "nosrc", [], []⟩]).1 "nosrc" rfl

/-- C5: when two distinct `proto_library` rules of one descriptor list
the same source basename in their `srcs`, parsing fails with the
duplicate-ownership error regardless of the order in which the two rules
appear, and no index is returned.  (The regularity hypotheses match the
data model: the first declaring rule is named and every declaring rule
carries a `srcs` attribute, so no other parse failure preempts the
duplicate check.) -/
theorem c5_duplicate_source_ownership (as bs cs : List Rule) (r1 r2 : Rule)
    (s : String)
    (h1 : r1.kind = "proto_library") (h2 : r2.kind = "proto_library")
    (hn : r1.name ≠ "") (_hbase : '/' ∉ s.toList)
    (hs1 : ∃ l, r1.AttrStrings "srcs" = some l ∧ s ∈ l)
    (hs2 : ∃ l, r2.AttrStrings "srcs" = some l ∧ s ∈ l)
    (hall : ∀ r ∈ as ++ r1 :: (bs ++ r2 :: cs), r.kind = "proto_library" →
      (r.AttrStrings "srcs").isSome) :
    ∃ s', parseBuildFile (as ++ r1 :: (bs ++ r2 :: cs)) =
        .error (.duplicateSourceOwnership s') ∧
      ∀ b, parseBuildFile (as ++ r1 :: (bs ++ r2 :: cs)) ≠ .ok b := by
  have hfil : rulesOfKind (as ++ r1 :: (bs ++ r2 :: cs)) "proto_library" =
      as.filter (fun r => r.kind = "proto_library") ++
        r1 :: (bs ++ r2 :: cs).filter (fun r => r.kind = "proto_library") := by
    simp only [rulesOfKind]
    rw [if_neg (by decide : ¬("proto_library" : String) = ""),
      List.filter_append, List.filter_cons_of_pos (by simp [h1])]
  have hbpi : ∃ s', buildProtoIndex
      (rulesOfKind (as ++ r1 :: (bs ++ r2 :: cs)) "proto_library") [] =
      .error (.duplicateSourceOwnership s') := by
    rw [hfil, buildProtoIndex_append]
    cases hA : buildProtoIndex (as.filter (fun r => r.kind = "proto_library")) [] with
    | error e =>
      have hallA : ∀ r ∈ as.filter (fun r => r.kind = "proto_library"),
          (r.AttrStrings "srcs").isSome := by
        intro r hr
        have hm := List.mem_filter.mp hr
        exact hall r (List.mem_append_left _ hm.1) (by simpa using hm.2)
      obtain ⟨s', hs'⟩ := buildProtoIndex_error_dup _ _ _ hallA hA
      exact ⟨s', by simp [hs']⟩
    | ok m₁ =>
      obtain ⟨l1, hl1, hsin1⟩ := hs1
      cases hrg : registerSrcs r1.name l1 m₁ with
      | error e =>
        obtain ⟨s', hs'⟩ := registerSrcs_error_dup _ _ _ _ hrg
        refine ⟨s', ?_⟩
        simp only [buildProtoIndex, hl1, hrg, hs']
      | ok m₂ =>
        have hregd : goGet m₂ s ≠ "" :=
          registerSrcs_registers r1.name hn l1 _ _ s hrg hsin1
        have hallR : ∀ r ∈ (bs ++ r2 :: cs).filter (fun r => r.kind = "proto_library"),
            (r.AttrStrings "srcs").isSome := by
          intro r hr
          have hm := List.mem_filter.mp hr
          exact hall r (List.mem_append_right _ (List.mem_cons_of_mem _ hm.1))
            (by simpa using hm.2)
        have hr2mem : r2 ∈ (bs ++ r2 :: cs).filter (fun r => r.kind = "proto_library") :=
          List.mem_filter.mpr
            ⟨List.mem_append_right _ (List.mem_cons_self _ _), by simp [h2]⟩
        obtain ⟨s', hs'⟩ :=
          buildProtoIndex_hits _ m₂ s hregd hallR ⟨r2, hr2mem, hs2⟩
        refine ⟨s', ?_⟩
        simp only [buildProtoIndex, hl1, hrg, hs']
  obtain ⟨s', hs'⟩ := hbpi
  have hparse : parseBuildFile (as ++ r1 :: (bs ++ r2 :: cs)) =
      .error (.duplicateSourceOwnership s') := by
    unfold parseBuildFile
    simp only [hs']
  exact ⟨s', hparse, fun b hb => by rw [hparse] at hb; exact Except.noConfusion hb⟩

/-- C5 witness: two `proto_library` rules both listing `m.proto`. -/
theorem c5_duplicate_source_ownership_witness :
    ∃ s', parseBuildFile
        [(⟨"proto_library", "a", [], [("srcs", ["m.proto"])]⟩ : Rule),
         ⟨"proto_library", "b", [], [("srcs", ["m.proto"])]⟩] =
        .error (.duplicateSourceOwnership s') ∧
      ∀ b, parseBuildFile
        [(⟨"proto_library", "a", [], [("srcs", ["m.proto"])]⟩ : Rule),
         ⟨"proto_library", "b", [], [("srcs", ["m.proto"])]⟩] ≠ .ok b :=
  c5_duplicate_source_ownership [] [] []
    ⟨"proto_library", "a", [], [("srcs", ["m.proto"])]⟩
    ⟨"proto_library", "b", [], [("srcs", ["m.proto"])]⟩
    "m.proto" rfl rfl (by decide) (by decide)
    ⟨["m.proto"], rfl, by simp⟩ ⟨["m.proto"], rfl, by simp⟩ (by decide)

/-- C9 counterexample: the claim says the index maps the *basename* of
each listed source string; but for a descriptor listing
`srcs = ["sub/m.proto"]` the parse keys the index by the listed string
verbatim, the basename `m.proto` is not a key, and the later lookup for
artifact `/ws/pkg/sub/m.proto` (basename `m.proto`) does not find the
declaring rule. -/
theorem c9_basename_key_counterexample :
    parseBuildFile subDescriptor = .ok subParsed ∧
    filepath.Base "/ws/pkg/sub/m.proto" = "m.proto" ∧
    alistFind subParsed.protoFileToRule "m.proto" = none ∧
    alistFind subParsed.protoFileToRule "sub/m.proto" = some "sub_m" ∧
    subParsed.getLangProtoRulesForProto "/ws/pkg/sub/m.proto" = none :=
  ⟨rfl, rfl, rfl, rfl, rfl⟩

/-- C9 (amended): the index maps each listed source string verbatim (not
its basename) to the declaring rule's name; lookup by an artifact's
basename therefore finds the declaring rule exactly when the source was
listed as the bare basename. -/
theorem c9_source_registered_verbatim (rules : List Rule) (b : parsedBuildFile)
    (r : Rule) (l : List String) (s : String)
    (hok : parseBuildFile rules = .ok b) (hr : r ∈ rules)
    (hk : r.kind = "proto_library") (hsrcs : r.AttrStrings "srcs" = some l)
    (hs : s ∈ l) (hn : r.name ≠ "") :
    goGet b.protoFileToRule s = r.name := by
  have hbp := parseBuildFile_ok_protoIndex rules b hok
  have hmem : r ∈ rulesOfKind rules "proto_library" := by
    simp only [rulesOfKind]
    rw [if_neg (by decide : ¬("proto_library" : String) = "")]
    exact List.mem_filter.mpr ⟨hr, by simp [hk]⟩
  exact buildProtoIndex_value _ _ _ r l s hmem hsrcs hs hn hbp

/-- C9 witness: in the worked example the listed string `m.proto` maps
to the declaring rule `m`. -/
theorem c9_source_registered_verbatim_witness :
    goGet mParsed.protoFileToRule "m.proto" = "m" :=
  c9_source_registered_verbatim mDescriptor mParsed
    ⟨"proto_library", "m", [], [("srcs", ["m.proto"])]⟩ ["m.proto"] "m.proto"
    rfl (by decide) rfl rfl (by decide) (by decide)

/-! ## Idempotence of the reconciliation pass -/

/-- `fs'` keeps every entry of `fs` (reconciliation only adds links and
never changes an existing entry). -/
def fsExtends (fs' fs : FS) : Prop :=
  ∀ k e, alistFind fs k = some e → alistFind fs' k = some e

theorem fsExtends_refl (fs : FS) : fsExtends fs fs := fun _ _ h => h

theorem fsExtends_trans {fs₁ fs₂ fs₃ : FS}
    (h₁ : fsExtends fs₂ fs₁) (h₂ : fsExtends fs₃ fs₂) : fsExtends fs₃ fs₁ :=
  fun k e h => h₂ k e (h₁ k e h)


theorem reconcile_ok (fs : FS) (link target : String) (fs' : FS)
    (o : ReconcileOutcome) (h : reconcile fs link target = .ok (fs', o)) :
    fsExtends fs' fs ∧ alistFind fs' link = some (.symlink target) := by
  unfold reconcile at h
  cases hfind : alistFind fs link with
  | none =>
    simp only [hfind] at h
    have hp := Except.ok.inj h
    injection hp with hfs ho
    subst hfs
    constructor
    · intro k e hk
      by_cases hlk : link = k
      · subst hlk
        rw [hfind] at hk
        exact Option.noConfusion hk
      · simpa [alistFind, hlk] using hk
    · simp [alistFind]
  | some entry =>
    cases entry with
    | symlink t =>
      simp only [hfind] at h
      by_cases ht : t = target
      · subst ht
        rw [if_pos rfl] at h
        have hp := Except.ok.inj h
        injection hp with hfs ho
        subst hfs
        exact ⟨fsExtends_refl fs, hfind⟩
      · rw [if_neg ht] at h
        exact Except.noConfusion h
    | nonLink =>
      simp only [hfind] at h
      exact Except.noConfusion h

theorem reconcile_upToDate (fs : FS) (link target : String)
    (h : alistFind fs link = some (.symlink target)) :
    reconcile fs link target = .ok (fs, .alreadyUpToDate) := by
  simp [reconcile, h]

theorem processLangRules_again (workspaceRoot protoFile : String)
    (rules : List languageProtoRule) :
    ∀ fs res fs₁ res₁,
      processLangRules workspaceRoot protoFile rules fs res = .ok (fs₁, res₁) →
      fsExtends fs₁ fs ∧
      res₁.created + res₁.upToDate = res.created + res.upToDate + rules.length ∧
      ∀ fs₂ res₂, fsExtends fs₂ fs₁ →
        processLangRules workspaceRoot protoFile rules fs₂ res₂ =
          .ok (fs₂, ⟨res₂.created, res₂.upToDate + rules.length⟩) := by
  induction rules with
  | nil =>
    intro fs res fs₁ res₁ h
    simp only [processLangRules] at h
    have hp := Except.ok.inj h
    injection hp with hfs hres
    subst hfs
    subst hres
    exact ⟨fsExtends_refl fs, by simp,
      fun fs₂ res₂ _ => by simp [processLangRules]⟩
  | cons rule rest ih =>
    intro fs res fs₁ res₁ h
    simp only [processLangRules] at h
    cases hlt : rule.getLinkAndTarget workspaceRoot protoFile with
    | error e =>
      simp only [hlt] at h
      exact Except.noConfusion h
    | ok pair =>
      obtain ⟨link, target⟩ := pair
      cases hrec : reconcile fs link target with
      | error e =>
        simp only [hlt, hrec] at h
        exact Except.noConfusion h
      | ok out =>
        obtain ⟨fs', o⟩ := out
        obtain ⟨hext', hlink'⟩ := reconcile_ok fs link target fs' o hrec
        cases o with
        | created =>
          simp only [hlt, hrec] at h
          obtain ⟨hext₁, hcount, hsecond⟩ := ih fs' _ fs₁ res₁ h
          refine ⟨fsExtends_trans hext' hext₁, by simp at hcount ⊢; omega, ?_⟩
          intro fs₂ res₂ hext₂
          have hlink₂ : alistFind fs₂ link = some (.symlink target) :=
            hext₂ link _ (hext₁ link _ hlink')
          simp only [processLangRules, hlt,
            reconcile_upToDate fs₂ link target hlink₂]
          rw [hsecond fs₂ ⟨res₂.created, res₂.upToDate + 1⟩ hext₂]
          simp [Nat.add_assoc, Nat.add_comm 1 rest.length]
        | alreadyUpToDate =>
          simp only [hlt, hrec] at h
          obtain ⟨hext₁, hcount, hsecond⟩ := ih fs' _ fs₁ res₁ h
          refine ⟨fsExtends_trans hext' hext₁, by simp at hcount ⊢; omega, ?_⟩
          intro fs₂ res₂ hext₂
          have hlink₂ : alistFind fs₂ link = some (.symlink target) :=
            hext₂ link _ (hext₁ link _ hlink')
          simp only [processLangRules, hlt,
            reconcile_upToDate fs₂ link target hlink₂]
          rw [hsecond fs₂ ⟨res₂.created, res₂.upToDate + 1⟩ hext₂]
          simp [Nat.add_assoc, Nat.add_comm 1 rest.length]

theorem processProtoFile_again (workspaceRoot protoFile : String)
    (buildFile : parsedBuildFile) (fs : FS) (res : result) (fs₁ : FS) (res₁ : result)
    (h : processProtoFile workspaceRoot protoFile buildFile fs res = .ok (fs₁, res₁)) :
    fsExtends fs₁ fs ∧
    ∃ n, res₁.created + res₁.upToDate = res.created + res.upToDate + n ∧
      ∀ fs₂ res₂, fsExtends fs₂ fs₁ →
        processProtoFile workspaceRoot protoFile buildFile fs₂ res₂ =
          .ok (fs₂, ⟨res₂.created, res₂.upToDate + n⟩) := by
  unfold processProtoFile at h ⊢
  cases hlook : buildFile.getLangProtoRulesForProto protoFile with
  | none =>
    simp only [hlook] at h
    exact Except.noConfusion h
  | some langRules =>
    simp only [hlook] at h ⊢
    obtain ⟨hext, hcount, hsecond⟩ :=
      processLangRules_again workspaceRoot protoFile langRules fs res fs₁ res₁ h
    exact ⟨hext, langRules.length, hcount, hsecond⟩

theorem processPass_again (workspaceRoot : String)
    (items : List (String × parsedBuildFile)) :
    ∀ fs res fs₁ res₁,
      processPass workspaceRoot items fs res = .ok (fs₁, res₁) →
      fsExtends fs₁ fs ∧
      ∃ n, res₁.created + res₁.upToDate = res.created + res.upToDate + n ∧
        ∀ fs₂ res₂, fsExtends fs₂ fs₁ →
          processPass workspaceRoot items fs₂ res₂ =
            .ok (fs₂, ⟨res₂.created, res₂.upToDate + n⟩) := by
  induction items with
  | nil =>
    intro fs res fs₁ res₁ h
    simp only [processPass] at h
    have hp := Except.ok.inj h
    injection hp with hfs hres
    subst hfs
    subst hres
    exact ⟨fsExtends_refl fs, 0, by simp,
      fun fs₂ res₂ _ => by simp [processPass]⟩
  | cons item rest ih =>
    intro fs res fs₁ res₁ h
    obtain ⟨protoFile, buildFile⟩ := item
    simp only [processPass] at h
    cases hp : processProtoFile workspaceRoot protoFile buildFile fs res with
    | error e =>
      simp only [hp] at h
      exact Except.noConfusion h
    | ok out =>
      obtain ⟨fs', res'⟩ := out
      simp only [hp] at h
      obtain ⟨hext', n₁, hcount₁, hsecond₁⟩ :=
        processProtoFile_again workspaceRoot protoFile buildFile fs res fs' res' hp
      obtain ⟨hext₁, n₂, hcount₂, hsecond₂⟩ := ih fs' res' fs₁ res₁ h
      refine ⟨fsExtends_trans hext' hext₁, n₁ + n₂, by omega, ?_⟩
      intro fs₂ res₂ hext₂
      have hstep := hsecond₁ fs₂ res₂ (fsExtends_trans hext₁ hext₂)
      simp only [processPass, hstep]
      rw [hsecond₂ fs₂ ⟨res₂.created, res₂.upToDate + n₁⟩ hext₂]
      simp [Nat.add_assoc]

/-- C1: idempotence of the reconciliation pass.  For any workspace root,
artifact set (each artifact paired with its parsed descriptor) and
starting filesystem, if the first pass succeeds with counters
`created = N, upToDate = 0` (as it does on a valid input whose computed
links are all absent), then running the pass again on the resulting
filesystem succeeds with counters `created = 0, upToDate = N` for the
same `N`, and returns the filesystem unchanged — so the link set after
the second run is identical to the link set after the first. -/
theorem c1_reconciliation_idempotent (workspaceRoot : String)
    (items : List (String × parsedBuildFile)) (fs₀ fs₁ : FS) (N : Nat)
    (h : processPass workspaceRoot items fs₀ ⟨0, 0⟩ = .ok (fs₁, ⟨N, 0⟩)) :
    processPass workspaceRoot items fs₁ ⟨0, 0⟩ = .ok (fs₁, ⟨0, N⟩) := by
  obtain ⟨hext, n, hcount, hsecond⟩ :=
    processPass_again workspaceRoot items fs₀ ⟨0, 0⟩ fs₁ ⟨N, 0⟩ h
  have hn : n = N := by simpa using hcount.symm
  have hrun := hsecond fs₁ ⟨0, 0⟩ (fsExtends_refl fs₁)
  rw [hn] at hrun
  simpa using hrun

/-- C1 witness: the worked example creates one link on the first run and
reports it up-to-date, with no change, on the second. -/
theorem c1_reconciliation_idempotent_witness :
    processPass "/ws" [("/ws/pkg/m.proto", mParsed)] mLinkedFS ⟨0, 0⟩ =
      .ok (mLinkedFS, ⟨0, 1⟩) :=
  c1_reconciliation_idempotent "/ws" [("/ws/pkg/m.proto", mParsed)] [] mLinkedFS 1 rfl
